import Mathlib

set_option maxHeartbeats 1000000

/-!
Verification development for `PDFTextExtractor.py`: a pipeline that
extracts test-case names from a source document and a target document,
matches them (strict equality first, then a loose fallback), applies
manual overrides, and keeps the matched target pages.

Text is modelled as `List Char`.  The two Python regular expressions
(`SRC_NAME_RE` and `TGT_DEVTEST_RE`) are embedded as explicit
backtracking matchers over the character list, following Python `re`
semantics for exactly those two patterns (leftmost match, greedy
quantifiers with backtracking, lazy capture groups, `$` without
`MULTILINE` meaning end of text or just before one trailing newline).
The character classes are modelled as follows: `\s` is the Python
`str` whitespace set; `\w` and `\d` are modelled on their ASCII
fragment (every concrete input appearing in the theorems below is
ASCII, where the model is exact), and `str.lower`/`str.upper` on the
ASCII letters.
-/

/-- Code points of Python `str` whitespace (the `\s` class of `re`). -/
def wsVals : List Nat :=
  [9, 10, 11, 12, 13, 28, 29, 30, 31, 32, 133, 160, 0x1680,
   0x2000, 0x2001, 0x2002, 0x2003, 0x2004, 0x2005, 0x2006, 0x2007,
   0x2008, 0x2009, 0x200A, 0x2028, 0x2029, 0x202F, 0x205F, 0x3000]

/-- Whitespace test (`\s`). -/
def isWS (c : Char) : Bool := wsVals.contains c.toNat

/-- Digit test (`\d`, ASCII fragment). -/
def isDigitCh (c : Char) : Bool := '0' ≤ c && c ≤ '9'

/-- Word-character test for `\b` boundaries (`\w`, ASCII fragment). -/
def isWordCh (c : Char) : Bool :=
  ('a' ≤ c && c ≤ 'z') || ('A' ≤ c && c ≤ 'Z') || isDigitCh c || c == '_'

/-- ASCII `str.lower` on one character. -/
def toLowerCh (c : Char) : Char :=
  if 'A' ≤ c && c ≤ 'Z' then Char.ofNat (c.toNat + 32) else c

/-- ASCII `str.upper` on one character. -/
def toUpperCh (c : Char) : Char :=
  if 'a' ≤ c && c ≤ 'z' then Char.ofNat (c.toNat - 32) else c

/-- `s.lower()` on a whole string. -/
def lowerL (l : List Char) : List Char := l.map toLowerCh

/-- `s.upper()` on a whole string. -/
def upperL (l : List Char) : List Char := l.map toUpperCh

/-- Python `str.strip()`: remove whitespace from both ends. -/
def pyStrip (l : List Char) : List Char :=
  ((l.dropWhile isWS).reverse.dropWhile isWS).reverse

/-- The characters of the Python call `.rstrip(":;,-")`. -/
def punctCs : List Char := [':', ';', ',', '-']

/-- Python `str.rstrip(":;,-")`: remove those characters from the right end. -/
def pyRstripPunct (l : List Char) : List Char :=
  (l.reverse.dropWhile (fun c => punctCs.contains c)).reverse

/-- The cleaning applied to every captured name in the source:
`.strip().rstrip(":;,-").strip()` (lines 54 and 70). -/
def cleanName (raw : List Char) : List Char := pyStrip (pyRstripPunct (pyStrip raw))

/-- Whether `pat` is a leading segment of `s` (exact characters). -/
def startsWithCh : List Char → List Char → Bool
  | [], _ => true
  | _ :: _, [] => false
  | p :: ps, c :: cs => p == c && startsWithCh ps cs

/-- Python substring containment `pat in s`. -/
def containsSub (pat : List Char) : List Char → Bool
  | [] => startsWithCh pat []
  | c :: t => startsWithCh pat (c :: t) || containsSub pat t

/-- `norm_layout` (lines 32-34): delete soft hyphens (U+00AD), replace
en dash (U+2013) and em dash (U+2014) by an ASCII hyphen. -/
def normLayout (l : List Char) : List Char :=
  l.filterMap (fun c =>
    if c.toNat = 0xAD then none
    else if c.toNat = 0x2013 || c.toNat = 0x2014 then some '-'
    else some c)

/-- Python `str.split()` (no separator): split on whitespace runs,
dropping empty pieces.  The accumulator holds the current word reversed. -/
def splitWSAux : List Char → List Char → List (List Char)
  | [], acc => if acc.isEmpty then [] else [acc.reverse]
  | c :: rest, acc =>
    if isWS c then
      if acc.isEmpty then splitWSAux rest [] else acc.reverse :: splitWSAux rest []
    else splitWSAux rest (c :: acc)

/-- The module-level configuration constants of the script
(lines 14-18 and the `HARDCODED_KEEP` list of line 160). -/
structure Config where
  dropWords : List (List Char)
  strictCaseSensitive : Bool
  enableLooseFallback : Bool
  looseCaseInsensitive : Bool
  manualKeep : List (List Char)

/-- The settings as committed in the source file (`HARDCODED_KEEP` is empty). -/
def cfgDefault : Config :=
  { dropWords := ["CONTY".data, "CRES".data, "P2P".data],
    strictCaseSensitive := true,
    enableLooseFallback := true,
    looseCaseInsensitive := true,
    manualKeep := [] }

/-- `norm_loose` (lines 36-42): underscores to spaces, collapse
whitespace runs (via `" ".join(s2.split())`), strip, optional lowercase. -/
def normLoose (cfg : Config) (s : List Char) : List Char :=
  let s2 := s.map (fun c => if c == '_' then ' ' else c)
  let s3 := pyStrip (List.intercalate [' '] (splitWSAux s2 []))
  if cfg.looseCaseInsensitive then lowerL s3 else s3

/-! ## The source-name regular expression

`SRC_NAME_RE = \b\d+(?:\.\d+)?\s*__\s*([^\r\n]*?)(?:(?:\s{2,})|\bTest\b|$)`
with `re.I`, used with `.search` (first match wins, line 52). -/

/-- First-some choice between two alternatives (regex backtracking order). -/
def orOpt (a b : Option (List Char)) : Option (List Char) :=
  match a with
  | some x => some x
  | none => b

/-- The capture's terminator `(?:(?:\s{2,})|\bTest\b|$)` tested at a
position: `prev` is the character immediately before the position
(needed for the `\b` of `Test`; the capture is always preceded by at
least the `__`).  `$` without `MULTILINE` matches at the very end or
just before a single trailing newline. -/
def termSrc (prev : Char) (s : List Char) : Bool :=
  (match s with
   | a :: b :: _ => isWS a && isWS b
   | _ => false)
  ||
  (match s with
   | t1 :: t2 :: t3 :: t4 :: rest =>
     toLowerCh t1 == 't' && toLowerCh t2 == 'e' && toLowerCh t3 == 's' &&
     toLowerCh t4 == 't' && !isWordCh prev &&
     (match rest with
      | [] => true
      | r :: _ => !isWordCh r)
   | _ => false)
  || s.isEmpty || s == ['\n']

/-- The lazy capture `([^\r\n]*?)` followed by its terminator: at each
position first try the terminator, else consume one non-CR/LF
character; fail on CR/LF with no terminator. -/
def srcTryGroup (prev : Char) : List Char → Option (List Char)
  | [] => if termSrc prev [] then some [] else none
  | c :: rest =>
    if termSrc prev (c :: rest) then some []
    else if c == '\r' || c == '\n' then none
    else (srcTryGroup c rest).map (fun g => c :: g)

/-- The greedy `\s*` directly before the capture: try the maximal
whitespace run first, then give characters back to the capture one by
one (they may be part of `[^\r\n]*?` or of the `\s{2,}` terminator). -/
def srcGroupSearch (prev : Char) : List Char → Option (List Char)
  | [] => srcTryGroup prev []
  | c :: rest =>
    if isWS c then orOpt (srcGroupSearch c rest) (srcTryGroup prev (c :: rest))
    else srcTryGroup prev (c :: rest)

/-- After the numeric part: `\s*__` then the capture.  The first `\s*`
is effectively maximal (giving back whitespace cannot produce the
following `_`). -/
def srcAfterNum (s : List Char) : Option (List Char) :=
  match s.dropWhile isWS with
  | '_' :: '_' :: s2 => srcGroupSearch '_' s2
  | _ => none

/-- Try the whole pattern at one position.  `prevWord` says whether the
preceding character is a word character (for the `\b` before `\d+`).
`\d+` is effectively maximal (a shorter run leaves a digit where `.`,
whitespace or `_` is required), and the optional `(?:\.\d+)?` is tried
greedily with fallback to skipping it. -/
def srcMatchAt (prevWord : Bool) (s : List Char) : Option (List Char) :=
  if prevWord then none
  else
    let d0 := s.takeWhile isDigitCh
    let s1 := s.dropWhile isDigitCh
    if d0.isEmpty then none
    else
      orOpt
        (match s1 with
         | '.' :: s2 =>
           let d2 := s2.takeWhile isDigitCh
           if d2.isEmpty then none else srcAfterNum (s2.dropWhile isDigitCh)
         | _ => none)
        (srcAfterNum s1)

/-- `re.search`: try every position left to right, tracking whether the
previous character is a word character. -/
def srcSearchAux (prevWord : Bool) : List Char → Option (List Char)
  | [] => none
  | c :: rest =>
    match srcMatchAt prevWord (c :: rest) with
    | some g => some g
    | none => srcSearchAux (isWordCh c) rest

/-- One page of `load_source_names` (lines 52-56): search, clean the
capture, drop it when empty. -/
def srcExtract (text : List Char) : Option (List Char) :=
  match srcSearchAux false text with
  | none => none
  | some g =>
    let n := cleanName g
    if n.isEmpty then none else some n

/-- `load_source_names` (lines 44-57) over the per-page texts. -/
def loadSourceNames (pages : List (List Char)) : List (List Char) :=
  pages.filterMap (fun t => srcExtract (normLayout t))

/-- The re-filtering of line 94: `[s for s in src_names if s.strip()]`. -/
def srcNamesOf (pages : List (List Char)) : List (List Char) :=
  (loadSourceNames pages).filter (fun s => !(pyStrip s).isEmpty)

/-! ## The target-entry regular expression

`TGT_DEVTEST_RE =
  Device\s*Test:\s*(\d{1,3}(?:\.\d{1,3}){1,3})\s+([^\r\n]*?)(?=\s{2,}|\r|\n|$)`
with `re.I`, used with `.finditer` (all non-overlapping matches, line 68). -/

/-- The lookahead `(?=\s{2,}|\r|\n|$)` tested at a position.  `$`'s
just-before-a-trailing-newline case is subsumed by the `\n` alternative. -/
def tgtTerm (s : List Char) : Bool :=
  match s with
  | [] => true
  | a :: rest =>
    a == '\r' || a == '\n' ||
    (match rest with
     | b :: _ => isWS a && isWS b
     | [] => false)

/-- The lazy capture `([^\r\n]*?)` up to the first position where the
lookahead holds, returning the capture and the remaining suffix.  Since
`\r`, `\n` and end of text all satisfy the lookahead, the scan always
succeeds (so the greedy `\s+` before it never backtracks). -/
def tgtGroup : List Char → List Char × List Char
  | [] => ([], [])
  | c :: rest =>
    if tgtTerm (c :: rest) then ([], c :: rest)
    else
      let gr := tgtGroup rest
      (c :: gr.1, gr.2)

/-- Strip a case-insensitive literal (for `Device` and `Test:` under `re.I`). -/
def stripCI : List Char → List Char → Option (List Char)
  | [], s => some s
  | _ :: _, [] => none
  | p :: ps, c :: cs => if toLowerCh p == toLowerCh c then stripCI ps cs else none

/-- Result of attempting one repetition of `(?:\.\d{1,3})` of the id group. -/
inductive RepRes where
  | stop : RepRes
  | bad : RepRes
  | took : List Char → List Char → RepRes

/-- One greedy repetition of `\.\d{1,3}`.  `stop`: no `.`+digit here, the
repetition ends (by maximality a shorter take is never retried, because
the continuation `\s+` cannot match the leftover digit or dot).  `bad`:
a run of more than three digits after the dot, after which every
backtracking alternative leaves a digit or dot where `\s+` is required,
so the whole match attempt at this position fails. -/
def tryRep (s : List Char) : RepRes :=
  match s with
  | '.' :: t =>
    let d := t.takeWhile isDigitCh
    if d.isEmpty then RepRes.stop
    else if d.length > 3 then RepRes.bad
    else RepRes.took d (t.dropWhile isDigitCh)
  | _ => RepRes.stop

/-- The id group `(\d{1,3}(?:\.\d{1,3}){1,3})`: one to three digits, then
one to three dot-separated digit runs of one to three digits, consumed
greedily.  Returns the captured id text and the rest.  A leading digit
run longer than three, zero repetitions, or a fourth-plus repetition
present in the text all make the attempt fail (the continuation `\s+`
rejects every backtracking alternative). -/
def parseId (s : List Char) : Option (List Char × List Char) :=
  let d0 := s.takeWhile isDigitCh
  let s1 := s.dropWhile isDigitCh
  if d0.isEmpty || d0.length > 3 then none
  else
    match tryRep s1 with
    | RepRes.stop => none
    | RepRes.bad => none
    | RepRes.took d1 s2 =>
      match tryRep s2 with
      | RepRes.stop => some (d0 ++ '.' :: d1, s2)
      | RepRes.bad => none
      | RepRes.took d2 s3 =>
        match tryRep s3 with
        | RepRes.stop => some (d0 ++ '.' :: d1 ++ '.' :: d2, s3)
        | RepRes.bad => none
        | RepRes.took d3 s4 =>
          match tryRep s4 with
          | RepRes.stop => some (d0 ++ '.' :: d1 ++ '.' :: d2 ++ '.' :: d3, s4)
          | _ => none

/-- Try the whole target pattern at one position: the literals with
interleaved `\s*`, the id group, the mandatory `\s+` (maximal: the lazy
capture plus lookahead never fails, so it never backtracks), then the
capture.  Returns (id, capture, rest after the match). -/
def tgtMatchAt (s : List Char) : Option (List Char × List Char × List Char) :=
  match stripCI ("Device".data) s with
  | none => none
  | some s1 =>
    match stripCI ("Test:".data) (s1.dropWhile isWS) with
    | none => none
    | some s3 =>
      match parseId (s3.dropWhile isWS) with
      | none => none
      | some (num, s5) =>
        match s5 with
        | [] => none
        | c :: _ =>
          if isWS c then
            let gr := tgtGroup (s5.dropWhile isWS)
            some (num, gr.1, gr.2)
          else none

/-- `re.finditer`: scan left to right; after a match continue from its
end (the lookahead consumes nothing).  Every match consumes at least the
`Device` literal, so the suffix length strictly decreases and the
initial length is enough fuel. -/
def tgtFindAllAux : Nat → List Char → List (List Char × List Char)
  | 0, _ => []
  | fuel + 1, s =>
    match tgtMatchAt s with
    | some (num, name, rest) => (num, name) :: tgtFindAllAux fuel rest
    | none =>
      match s with
      | [] => []
      | _ :: t => tgtFindAllAux fuel t

/-- All matches of `TGT_DEVTEST_RE` in a page text, in order. -/
def tgtFindAll (s : List Char) : List (List Char × List Char) :=
  tgtFindAllAux s.length s

/-- The drop-word test of lines 74-75: `any(dw in name.upper() ...)`. -/
def hasDropWord (cfg : Config) (n : List Char) : Bool :=
  cfg.dropWords.any (fun dw => containsSub dw (upperL n))

/-- The per-occurrence processing of lines 68-77: clean the capture,
drop it when empty or when it contains a drop-word. -/
def processTgt (cfg : Config) (text : List Char) : List (List Char) :=
  (tgtFindAll text).filterMap (fun occ =>
    let n := cleanName occ.2
    if n.isEmpty then none
    else if hasDropWord cfg n then none
    else some n)

/-- 1-based page numbering (`pno = i + 1`, line 65). -/
def numberPages (k : Nat) : List (List Char) → List (Nat × List Char)
  | [] => []
  | t :: rest => (k, t) :: numberPages (k + 1) rest

/-- `load_target_tests` (lines 59-78): the PageIndex, a `defaultdict`
keyed by page number holding the surviving names in order of
appearance.  Only pages with at least one surviving name get a key. -/
def loadTargetTests (cfg : Config) (pages : List (List Char)) :
    List (Nat × List (List Char)) :=
  ((numberPages 1 pages).map (fun pt => (pt.1, processTgt cfg (normLayout pt.2)))).filter
    (fun pn => !pn.2.isEmpty)

/-! ## The matcher (lines 102-157) -/

/-- All target names flattened across pages (iteration of
`tgt_page_map.items()`, lines 105-113). -/
def flatNames (idx : List (Nat × List (List Char))) : List (List Char) :=
  (idx.map Prod.snd).flatten

/-- `key = s if STRICT_CASE_SENSITIVE else s.lower()` (line 130). -/
def strictRuleKey (cfg : Config) (s : List Char) : List Char :=
  if cfg.strictCaseSensitive then s else lowerL s

/-- `tgt_strict_set` (lines 104-113): all names, lowered when the strict
mode is case-insensitive.  Only membership is ever used. -/
def strictSetL (cfg : Config) (idx : List (Nat × List (List Char))) : List (List Char) :=
  if cfg.strictCaseSensitive then flatNames idx else (flatNames idx).map lowerL

/-- The per-page strict test of line 136:
`s in names or (not STRICT_CASE_SENSITIVE and s.lower() in [n.lower() ...])`. -/
def strictHitP (cfg : Config) (s : List Char) (names : List (List Char)) : Prop :=
  s ∈ names ∨ (cfg.strictCaseSensitive = false ∧ lowerL s ∈ names.map lowerL)

instance (cfg : Config) (s : List Char) (names : List (List Char)) :
    Decidable (strictHitP cfg s names) := by
  unfold strictHitP; infer_instance

/-- The pages a source name collects in the strict phase (lines 133-138):
nothing unless its key is in `tgt_strict_set`, else every page whose
name list passes the per-page test. -/
def strictPages (cfg : Config) (idx : List (Nat × List (List Char))) (s : List Char) :
    List Nat :=
  if strictRuleKey cfg s ∈ strictSetL cfg idx then
    (idx.filter (fun pn => decide (strictHitP cfg s pn.2))).map Prod.fst
  else []

/-- Key membership in `tgt_loose_map` (lines 115-119): the map is built
only when the loose fallback is enabled, and holds key `norm_loose n`
for every target name `n`. -/
def looseKeyMem (cfg : Config) (idx : List (Nat × List (List Char))) (lk : List Char) :
    Prop :=
  cfg.enableLooseFallback = true ∧ lk ∈ (flatNames idx).map (normLoose cfg)

instance (cfg : Config) (idx : List (Nat × List (List Char))) (lk : List Char) :
    Decidable (looseKeyMem cfg idx lk) := by
  unfold looseKeyMem; infer_instance

/-- `tgt_loose_map[lk]`: the original names whose loose key is `lk`. -/
def looseOriginals (cfg : Config) (idx : List (Nat × List (List Char))) (lk : List Char) :
    List (List Char) :=
  (flatNames idx).filter (fun n => normLoose cfg n == lk)

/-- The pages a source name collects in the loose phase (lines 144-155):
nothing unless loose is enabled and its loose key is in the map, else
every page holding any original name under that key. -/
def loosePages (cfg : Config) (idx : List (Nat × List (List Char))) (s : List Char) :
    List Nat :=
  if looseKeyMem cfg idx (normLoose cfg s) then
    (idx.filter (fun pn =>
      (looseOriginals cfg idx (normLoose cfg s)).any (fun o => pn.2.contains o))).map
      Prod.fst
  else []

/-- The classification of one source name (STRICT / LOOSE / NONE). -/
inductive MatchClass where
  | STRICT : MatchClass
  | LOOSE : MatchClass
  | NONE : MatchClass
deriving DecidableEq

/-- One iteration of the matching loop (lines 128-157) for source name
`s`: the pages it contributes and its classification.  The strict pages
are added first; only when none were found (`matched` still false) is
the loose fallback consulted. -/
def matchOne (cfg : Config) (idx : List (Nat × List (List Char))) (s : List Char) :
    List Nat × MatchClass :=
  let sp := strictPages cfg idx s
  if !sp.isEmpty then (sp, MatchClass.STRICT)
  else
    let lp := loosePages cfg idx s
    if !lp.isEmpty then (lp, MatchClass.LOOSE) else ([], MatchClass.NONE)

/-- The loop state: `kept_pages` (a Python set, modelled as the list of
added pages, deduplicated when finally sorted) and the three counters. -/
structure MatchState where
  kept : List Nat
  strictCnt : Nat
  looseCnt : Nat
  noneCnt : Nat

/-- Add the contributed pages and bump the counter of the class. -/
def bump (st : MatchState) (pgs : List Nat) : MatchClass → MatchState
  | MatchClass.STRICT => { st with kept := st.kept ++ pgs, strictCnt := st.strictCnt + 1 }
  | MatchClass.LOOSE => { st with kept := st.kept ++ pgs, looseCnt := st.looseCnt + 1 }
  | MatchClass.NONE => { st with kept := st.kept ++ pgs, noneCnt := st.noneCnt + 1 }

def matchStep (cfg : Config) (idx : List (Nat × List (List Char)))
    (st : MatchState) (s : List Char) : MatchState :=
  let r := matchOne cfg idx s
  bump st r.1 r.2

/-- The whole matching loop over the source names. -/
def matchLoop (cfg : Config) (idx : List (Nat × List (List Char)))
    (srcNames : List (List Char)) : MatchState :=
  srcNames.foldl (matchStep cfg idx) ⟨[], 0, 0, 0⟩

/-- The manual-override scan (lines 164-168): every PageIndex page one
of whose entries strips to a member of `HARDCODED_KEEP`. -/
def manualPages (cfg : Config) (idx : List (Nat × List (List Char))) : List Nat :=
  (idx.filter (fun pn => decide (∃ n ∈ pn.2, pyStrip n ∈ cfg.manualKeep))).map Prod.fst

/-- `sorted(kept_pages)` where `kept_pages` is a set: sort the
deduplicated additions ascending (line 170). -/
def sortDedup (l : List Nat) : List Nat :=
  List.insertionSort (· ≤ ·) l.dedup

/-- The final keep list for a given source-name list and PageIndex. -/
def finalKeep (cfg : Config) (srcNames : List (List Char))
    (idx : List (Nat × List (List Char))) : List Nat :=
  sortDedup ((matchLoop cfg idx srcNames).kept ++ manualPages cfg idx)

/-- The keep list computed by `main` from the two documents' page texts. -/
def pipelineKeep (cfg : Config) (srcPages tgtPages : List (List Char)) : List Nat :=
  finalKeep cfg (srcNamesOf srcPages) (loadTargetTests cfg tgtPages)

/-- `write_pdf_pages` (lines 80-89): with an empty keep list nothing is
written (early return, lines 81-83); otherwise the output document is
the kept target pages copied one by one in list order, represented here
by the ordered list of copied 1-based page numbers. -/
def writePdfPages (keep : List Nat) : Option (List Nat) :=
  if keep.isEmpty then none else some keep

/-- The figures of the final RESULT block (lines 185-191). -/
structure Summary where
  totalPages : Nat
  keptCount : Nat
  srcTotal : Nat
  strictCnt : Nat
  looseCnt : Nat
  noneCnt : Nat

/-- What a run of `main` produces (lines 91-191): the optional output
document, which of the two step-4 messages was printed (`Wrote:` versus
`[!] No pages matched — no PDF written.`), and the final summary, which
is always printed. -/
structure RunResult where
  output : Option (List Nat)
  savedMsg : Bool
  noMatchMsg : Bool
  summary : Summary

/-- `main` as a pure function of the two documents' page texts. -/
def runMain (cfg : Config) (srcPages tgtPages : List (List Char)) : RunResult :=
  let srcNames := srcNamesOf srcPages
  let idx := loadTargetTests cfg tgtPages
  let keep := finalKeep cfg srcNames idx
  let st := matchLoop cfg idx srcNames
  { output := if keep.isEmpty then none else writePdfPages keep,
    savedMsg := !keep.isEmpty,
    noMatchMsg := keep.isEmpty,
    summary :=
      { totalPages := tgtPages.length,
        keptCount := keep.length,
        srcTotal := srcNames.length,
        strictCnt := st.strictCnt,
        looseCnt := st.looseCnt,
        noneCnt := st.noneCnt } }

/-! ## Renderings of the spec's extraction wording

For the two refinement claims about the extractors, the following
definitions follow the *claims' words* (not the code), to be compared
with the code-faithful matchers above. -/

/-- Claim C7's terminator, as worded: two-or-more consecutive spaces,
the literal word `Test`, or end of text. -/
def termSpecC7 (prev : Char) (s : List Char) : Bool :=
  (match s with
   | ' ' :: ' ' :: _ => true
   | _ => false) ||
  (match s with
   | 'T' :: 'e' :: 's' :: 't' :: rest =>
     !isWordCh prev &&
     (match rest with
      | [] => true
      | r :: _ => !isWordCh r)
   | _ => false) || s.isEmpty

/-- Claim C7's name: the text running from the region start until the
first terminator position. -/
def specNameScan (prev : Char) : List Char → List Char
  | [] => []
  | c :: rest => if termSpecC7 prev (c :: rest) then [] else c :: specNameScan c rest

/-- Claim C7's `__` separator, with the optional whitespace shown around
it in the spec's pattern; returns the start of the name region. -/
def specAfterUnderscores (s : List Char) : Option (List Char) :=
  match s.dropWhile isWS with
  | '_' :: '_' :: s2 => some (s2.dropWhile isWS)
  | _ => none

/-- Claim C7's numeric prefix pattern at one position:
`<int>[.<int>] __`, yielding the name region. -/
def srcSpecMatchAt (s : List Char) : Option (List Char) :=
  let d0 := s.takeWhile isDigitCh
  if d0.isEmpty then none
  else
    let s1 := s.dropWhile isDigitCh
    let s2 :=
      match s1 with
      | '.' :: t => if (t.takeWhile isDigitCh).isEmpty then s1 else t.dropWhile isDigitCh
      | _ => s1
    specAfterUnderscores s2

/-- Claim C7's "first numeric prefix pattern": leftmost position where
the prefix pattern itself matches. -/
def srcSpecSearch : List Char → Option (List Char)
  | [] => none
  | c :: rest =>
    match srcSpecMatchAt (c :: rest) with
    | some r => some r
    | none => srcSpecSearch rest

/-- Source extraction exactly as claim C7 words it: the text following
the first numeric prefix pattern, until the first of two-or-more
consecutive spaces, the word `Test`, or end of text, then trimmed with
trailing `:;,-` stripped (an empty result contributes no name). -/
def srcExtractSpec (text : List Char) : Option (List Char) :=
  match srcSpecSearch text with
  | none => none
  | some region =>
    let n := cleanName (specNameScan ' ' region)
    if n.isEmpty then none else some n

/-- Claim C8's dotted-id repetition as worded: a dot followed by a
numeric group of unbounded length. -/
def tryRepSpec (s : List Char) : Option (List Char) :=
  match s with
  | '.' :: t =>
    if (t.takeWhile isDigitCh).isEmpty then none else some (t.dropWhile isDigitCh)
  | _ => none

/-- Claim C8's dotted id: 2 to 4 numeric groups, digits unbounded. -/
def parseIdSpec (s : List Char) : Option (List Char) :=
  if (s.takeWhile isDigitCh).isEmpty then none
  else
    match tryRepSpec (s.dropWhile isDigitCh) with
    | none => none
    | some s2 =>
      match tryRepSpec s2 with
      | none => some s2
      | some s3 =>
        match tryRepSpec s3 with
        | none => some s3
        | some s4 =>
          match tryRepSpec s4 with
          | none => some s4
          | some _ => none

/-- Claim C8's pattern at one position, its name running until
two-or-more spaces, a line break, or end of text (same terminator as
the code); returns the name and the rest. -/
def tgtSpecMatchAt (s : List Char) : Option (List Char × List Char) :=
  match stripCI ("Device".data) s with
  | none => none
  | some s1 =>
    match stripCI ("Test:".data) (s1.dropWhile isWS) with
    | none => none
    | some s3 =>
      match parseIdSpec (s3.dropWhile isWS) with
      | none => none
      | some s5 =>
        match s5 with
        | [] => none
        | c :: _ =>
          if isWS c then
            let gr := tgtGroup (s5.dropWhile isWS)
            some (gr.1, gr.2)
          else none

/-- All occurrences under claim C8's wording, in order. -/
def tgtSpecFindAllAux : Nat → List Char → List (List Char)
  | 0, _ => []
  | fuel + 1, s =>
    match tgtSpecMatchAt s with
    | some (name, rest) => name :: tgtSpecFindAllAux fuel rest
    | none =>
      match s with
      | [] => []
      | _ :: t => tgtSpecFindAllAux fuel t

/-- Target extraction exactly as claim C8 words it, including the
cleaning, empty-name discard and drop-word discard. -/
def processTgtSpec (cfg : Config) (text : List Char) : List (List Char) :=
  (tgtSpecFindAllAux text.length text).filterMap (fun raw =>
    let n := cleanName raw
    if n.isEmpty then none
    else if hasDropWord cfg n then none
    else some n)

/-! ## Concrete inputs used in the theorems below -/

/-- Scenario A source page text. -/
def tScenA : List Char := "2.1 __ Battery Voltage Check   Test".data

def nmBattery : List Char := "Battery Voltage Check".data

/-- A source page whose first numeric prefix reaches a line break with
no terminator. -/
def tC7a : List Char := "1 __ Foo\nBar".data

def nmC7 : List Char := "Foo\nBar".data

/-- A source page where the first numeric prefix fails and a later one
matches. -/
def tC7b : List Char := "1 __ A\n2 __ B  x".data

def nmB : List Char := "B".data

/-- A target page with two occurrences, with 2 and 4 id groups. -/
def t8a : List Char := "Device Test: 1.2 Alpha  Device Test: 3.4.5.6 Beta".data

def nmAlpha : List Char := "Alpha".data

def nmBeta : List Char := "Beta".data

/-- A target page whose id has a single numeric group. -/
def t8b : List Char := "Device Test: 7 Gamma  ".data

/-- A target page whose id has five numeric groups. -/
def t8c : List Char := "Device Test: 1.2.3.4.5 Gamma  ".data

/-- A target page whose id has a four-digit first group. -/
def t8d : List Char := "Device Test: 1234.5 Gamma  ".data

def nmGamma : List Char := "Gamma".data

/-- A target page whose sole entry name contains the drop-word CONTY. -/
def tC4 : List Char := "Device Test: 1.2.3 CONTY Startup  ".data

def nmConty : List Char := "CONTY Startup".data

/-- The default configuration with the dropped name also listed as a
manual keep. -/
def cfgC4 : Config := { cfgDefault with manualKeep := [nmConty] }

/-- A target page with the manual-keep scenario name. -/
def tC5 : List Char := "Device Test: 1.2 Legacy Diagnostic  ".data

def nmLegacy : List Char := "Legacy Diagnostic".data

/-- The default configuration plus Scenario D's manual-keep entry. -/
def cfgC5 : Config := { cfgDefault with manualKeep := [nmLegacy] }

/-- A matching source page / target page pair (Scenario A shaped). -/
def sA1 : List Char := "1 __ Alpha  ".data

def tA1 : List Char := "Device Test: 1.2 Alpha  ".data

/-! ## Helper lemmas -/

theorem mem_of_mem_pyStrip {a : Char} {l : List Char} (h : a ∈ pyStrip l) : a ∈ l := by
  unfold pyStrip at h
  rw [List.mem_reverse] at h
  have h1 := (List.dropWhile_suffix isWS).subset h
  rw [List.mem_reverse] at h1
  exact (List.dropWhile_suffix isWS).subset h1

theorem mem_of_mem_pyRstrip {a : Char} {l : List Char} (h : a ∈ pyRstripPunct l) : a ∈ l := by
  unfold pyRstripPunct at h
  rw [List.mem_reverse] at h
  have h1 := (List.dropWhile_suffix _).subset h
  rwa [List.mem_reverse] at h1

theorem mem_of_mem_cleanName {a : Char} {raw : List Char} (h : a ∈ cleanName raw) : a ∈ raw :=
  mem_of_mem_pyStrip (mem_of_mem_pyRstrip (mem_of_mem_pyStrip h))

theorem reverse_dropWhile_isPre (p : Char → Bool) (l : List Char) :
    (l.reverse.dropWhile p).reverse <+: l := by
  have h : l.reverse.dropWhile p <:+ l.reverse := List.dropWhile_suffix p
  have h2 := List.reverse_prefix.mpr h
  simpa using h2

theorem pyStrip_within (l : List Char) : pyStrip l <:+: l := by
  have h1 : l.dropWhile isWS <:+ l := List.dropWhile_suffix isWS
  have h2 := reverse_dropWhile_isPre isWS (l.dropWhile isWS)
  exact h2.isInfix.trans h1.isInfix

theorem pyRstrip_within (l : List Char) : pyRstripPunct l <:+: l :=
  (reverse_dropWhile_isPre _ l).isInfix

theorem cleanName_within (raw : List Char) : cleanName raw <:+: raw :=
  ((pyStrip_within _).trans (pyRstrip_within _)).trans (pyStrip_within raw)

theorem srcTryGroup_not_crlf :
    ∀ (s : List Char) (prev : Char) (g : List Char), srcTryGroup prev s = some g →
      ∀ c ∈ g, c ≠ '\r' ∧ c ≠ '\n' := by
  intro s
  induction s with
  | nil =>
    intro prev g h c hc
    unfold srcTryGroup at h
    split at h <;> simp_all
  | cons a rest ih =>
    intro prev g h c hc
    unfold srcTryGroup at h
    split at h
    · simp only [Option.some.injEq] at h
      subst h
      simp at hc
    · split at h
      · simp at h
      · rename_i hcrlf
        cases hg : srcTryGroup a rest with
        | none => rw [hg] at h; simp at h
        | some g1 =>
          rw [hg] at h
          simp only [Option.map_some', Option.some.injEq] at h
          subst h
          rcases List.mem_cons.mp hc with hce | hcm
          · subst hce
            constructor <;> (intro he; subst he; simp at hcrlf)
          · exact ih a g1 hg c hcm

theorem srcGroupSearch_not_crlf :
    ∀ (s : List Char) (prev : Char) (g : List Char), srcGroupSearch prev s = some g →
      ∀ c ∈ g, c ≠ '\r' ∧ c ≠ '\n' := by
  intro s
  induction s with
  | nil =>
    intro prev g h
    exact srcTryGroup_not_crlf [] prev g h
  | cons a rest ih =>
    intro prev g h
    unfold srcGroupSearch at h
    split at h
    · unfold orOpt at h
      cases hg : srcGroupSearch a rest with
      | some g1 =>
        rw [hg] at h
        simp only [Option.some.injEq] at h
        subst h
        exact ih a g1 hg
      | none =>
        rw [hg] at h
        exact srcTryGroup_not_crlf (a :: rest) prev g h
    · exact srcTryGroup_not_crlf (a :: rest) prev g h

theorem srcAfterNum_not_crlf {s g : List Char} (h : srcAfterNum s = some g) :
    ∀ c ∈ g, c ≠ '\r' ∧ c ≠ '\n' := by
  unfold srcAfterNum at h
  split at h
  · exact srcGroupSearch_not_crlf _ _ _ h
  · simp at h

theorem srcMatchAt_not_crlf {pw : Bool} {s g : List Char} (h : srcMatchAt pw s = some g) :
    ∀ c ∈ g, c ≠ '\r' ∧ c ≠ '\n' := by
  unfold srcMatchAt at h
  dsimp only [] at h
  split at h
  · simp at h
  · split at h
    · simp at h
    · unfold orOpt at h
      split at h
      · rename_i x hx
        split at hx
        · rename_i s2 heq
          split at hx
          · simp at hx
          · simp only [Option.some.injEq] at h
            subst h
            exact srcAfterNum_not_crlf hx
        · simp at hx
      · exact srcAfterNum_not_crlf h

theorem srcSearchAux_not_crlf :
    ∀ (s : List Char) (pw : Bool) (g : List Char), srcSearchAux pw s = some g →
      ∀ c ∈ g, c ≠ '\r' ∧ c ≠ '\n' := by
  intro s
  induction s with
  | nil => intro pw g h; simp [srcSearchAux] at h
  | cons a rest ih =>
    intro pw g h
    unfold srcSearchAux at h
    split at h
    · rename_i g1 hm
      simp only [Option.some.injEq] at h
      subst h
      exact srcMatchAt_not_crlf hm
    · exact ih (isWordCh a) g h

theorem srcExtract_props {text n : List Char} (h : srcExtract text = some n) :
    n ≠ [] ∧ ∀ c ∈ n, c ≠ '\r' ∧ c ≠ '\n' := by
  unfold srcExtract at h
  split at h
  · simp at h
  · rename_i g hg
    dsimp only [] at h
    split at h
    · simp at h
    · rename_i hne
      simp only [Option.some.injEq] at h
      subst h
      refine ⟨by simpa using hne, ?_⟩
      intro c hc
      exact srcSearchAux_not_crlf text false g hg c (mem_of_mem_cleanName hc)

theorem tgtGroup_append : ∀ s : List Char, (tgtGroup s).1 ++ (tgtGroup s).2 = s := by
  intro s
  induction s with
  | nil => rfl
  | cons c rest ih =>
    unfold tgtGroup
    split
    · rfl
    · dsimp only []
      rw [List.cons_append, ih]

theorem tgtGroup_not_crlf : ∀ (s : List Char), ∀ c ∈ (tgtGroup s).1, c ≠ '\r' ∧ c ≠ '\n' := by
  intro s
  induction s with
  | nil => intro c hc; simp [tgtGroup] at hc
  | cons a rest ih =>
    intro c hc
    unfold tgtGroup at hc
    split at hc
    · simp at hc
    · rename_i hterm
      dsimp only [] at hc
      rcases List.mem_cons.mp hc with hce | hcm
      · subst hce
        unfold tgtTerm at hterm
        constructor <;> (intro he; subst he; simp at hterm)
      · exact ih c hcm

theorem tgtGroup_chain :
    ∀ s : List Char,
      List.Chain' (fun a b => ¬(isWS a = true ∧ isWS b = true)) (tgtGroup s).1 := by
  intro s
  induction s with
  | nil => simp [tgtGroup]
  | cons a rest ih =>
    unfold tgtGroup
    split
    · simp
    · rename_i hterm
      dsimp only []
      rw [List.chain'_cons']
      refine ⟨?_, ih⟩
      intro b hb
      cases hg1 : (tgtGroup rest).1 with
      | nil => rw [hg1] at hb; simp at hb
      | cons b0 g1t =>
        rw [hg1] at hb
        simp only [List.head?_cons, Option.mem_def, Option.some.injEq] at hb
        subst hb
        have happ := tgtGroup_append rest
        rw [hg1] at happ
        have hrest : rest = b0 :: (g1t ++ (tgtGroup rest).2) := happ.symm
        unfold tgtTerm at hterm
        rw [hrest] at hterm
        simp only [Bool.or_eq_true, Bool.and_eq_true, not_or] at hterm
        exact hterm.2

theorem tgtMatchAt_shape {s : List Char} {num name rest : List Char}
    (h : tgtMatchAt s = some (num, name, rest)) : ∃ u, name = (tgtGroup u).1 := by
  unfold tgtMatchAt at h
  split at h
  · simp at h
  · split at h
    · simp at h
    · split at h
      · simp at h
      · rename_i s5h
        split at h
        · simp at h
        · split at h
          · dsimp only [] at h
            simp only [Option.some.injEq, Prod.mk.injEq] at h
            exact ⟨_, h.2.1.symm⟩
          · simp at h

theorem tgtFindAllAux_succ (fuel : Nat) (s : List Char) :
    tgtFindAllAux (fuel + 1) s =
      match tgtMatchAt s with
      | some (num, name, rest) => (num, name) :: tgtFindAllAux fuel rest
      | none =>
        match s with
        | [] => []
        | _ :: t => tgtFindAllAux fuel t := rfl

theorem tgtFindAllAux_shape :
    ∀ (fuel : Nat) (s : List Char) (num name : List Char),
      (num, name) ∈ tgtFindAllAux fuel s → ∃ u, name = (tgtGroup u).1 := by
  intro fuel
  induction fuel with
  | zero => intro s num name h; simp [tgtFindAllAux] at h
  | succ f ih =>
    intro s num name h
    rw [tgtFindAllAux_succ] at h
    split at h
    · rename_i num1 name1 rest1 hm
      rcases List.mem_cons.mp h with hce | hcm
      · cases hce
        exact tgtMatchAt_shape hm
      · exact ih rest1 num name hcm
    · split at h
      · simp at h
      · exact ih _ num name h

theorem processTgt_name_props {cfg : Config} {text n : List Char}
    (h : n ∈ processTgt cfg text) :
    n ≠ [] ∧ hasDropWord cfg n = false ∧ (∀ c ∈ n, c ≠ '\r' ∧ c ≠ '\n') ∧
      List.Chain' (fun a b => ¬(isWS a = true ∧ isWS b = true)) n := by
  unfold processTgt at h
  rw [List.mem_filterMap] at h
  obtain ⟨occ, hocc, hf⟩ := h
  dsimp only [] at hf
  split at hf
  · simp at hf
  · split at hf
    · simp at hf
    · rename_i hne hdw
      simp only [Option.some.injEq] at hf
      subst hf
      obtain ⟨u, hu⟩ := tgtFindAllAux_shape _ _ occ.1 occ.2 (by simpa using hocc)
      refine ⟨by simpa using hne, by simpa using hdw, ?_, ?_⟩
      · intro c hc
        exact tgtGroup_not_crlf u c (hu ▸ mem_of_mem_cleanName hc)
      · exact List.Chain'.infix (tgtGroup_chain u) (hu ▸ cleanName_within occ.2)

theorem numberPages_bound :
    ∀ (l : List (List Char)) (k p : Nat) (t : List Char),
      (p, t) ∈ numberPages k l → k ≤ p ∧ p < k + l.length := by
  intro l
  induction l with
  | nil => intro k p t h; simp [numberPages] at h
  | cons x rest ih =>
    intro k p t h
    unfold numberPages at h
    rcases List.mem_cons.mp h with hce | hcm
    · cases hce
      simp
    · have := ih (k + 1) p t hcm
      constructor <;> [omega; (simp only [List.length_cons]; omega)]

theorem loadTargetTests_mem {cfg : Config} {pages : List (List Char)}
    {p : Nat} {names : List (List Char)} (h : (p, names) ∈ loadTargetTests cfg pages) :
    (1 ≤ p ∧ p ≤ pages.length) ∧ ∃ t, names = processTgt cfg (normLayout t) := by
  unfold loadTargetTests at h
  rw [List.mem_filter] at h
  obtain ⟨hmem, _⟩ := h
  rw [List.mem_map] at hmem
  obtain ⟨pt, hpt, heq⟩ := hmem
  have h1 : p = pt.1 ∧ names = processTgt cfg (normLayout pt.2) := by
    constructor
    · exact (congrArg Prod.fst heq).symm
    · exact (congrArg Prod.snd heq).symm
  obtain ⟨hp, hn⟩ := h1
  subst hp
  have hb := numberPages_bound pages 1 pt.1 pt.2 hpt
  exact ⟨⟨hb.1, by omega⟩, ⟨pt.2, hn⟩⟩

theorem strictPages_sub {cfg : Config} {idx : List (Nat × List (List Char))}
    {s : List Char} {p : Nat} (h : p ∈ strictPages cfg idx s) : p ∈ idx.map Prod.fst := by
  unfold strictPages at h
  split at h
  · rw [List.mem_map] at h
    obtain ⟨pn, hpn, hfst⟩ := h
    exact List.mem_map.mpr ⟨pn, (List.mem_filter.mp hpn).1, hfst⟩
  · simp at h

theorem loosePages_sub {cfg : Config} {idx : List (Nat × List (List Char))}
    {s : List Char} {p : Nat} (h : p ∈ loosePages cfg idx s) : p ∈ idx.map Prod.fst := by
  unfold loosePages at h
  split at h
  · rw [List.mem_map] at h
    obtain ⟨pn, hpn, hfst⟩ := h
    exact List.mem_map.mpr ⟨pn, (List.mem_filter.mp hpn).1, hfst⟩
  · simp at h

theorem manualPages_sub {cfg : Config} {idx : List (Nat × List (List Char))}
    {p : Nat} (h : p ∈ manualPages cfg idx) : p ∈ idx.map Prod.fst := by
  unfold manualPages at h
  rw [List.mem_map] at h
  obtain ⟨pn, hpn, hfst⟩ := h
  exact List.mem_map.mpr ⟨pn, (List.mem_filter.mp hpn).1, hfst⟩

theorem matchOne_sub {cfg : Config} {idx : List (Nat × List (List Char))}
    {s : List Char} {p : Nat} (h : p ∈ (matchOne cfg idx s).1) : p ∈ idx.map Prod.fst := by
  simp only [matchOne] at h
  split at h
  · exact strictPages_sub h
  · split at h
    · exact loosePages_sub h
    · simp at h

theorem bump_kept (st : MatchState) (pgs : List Nat) (cl : MatchClass) :
    (bump st pgs cl).kept = st.kept ++ pgs := by
  cases cl <;> rfl

theorem matchStep_kept (cfg : Config) (idx : List (Nat × List (List Char)))
    (st : MatchState) (s : List Char) :
    (matchStep cfg idx st s).kept = st.kept ++ (matchOne cfg idx s).1 := by
  unfold matchStep
  exact bump_kept _ _ _

theorem matchFold_kept_sub {cfg : Config} {idx : List (Nat × List (List Char))} :
    ∀ (l : List (List Char)) (st : MatchState) (q : Nat),
      q ∈ (l.foldl (matchStep cfg idx) st).kept → q ∈ st.kept ∨ q ∈ idx.map Prod.fst := by
  intro l
  induction l with
  | nil => intro st q h; exact Or.inl h
  | cons s rest ih =>
    intro st q h
    rw [List.foldl_cons] at h
    rcases ih (matchStep cfg idx st s) q h with hin | hidx
    · rw [matchStep_kept] at hin
      rcases List.mem_append.mp hin with h1 | h2
      · exact Or.inl h1
      · exact Or.inr (matchOne_sub h2)
    · exact Or.inr hidx

theorem mem_sortDedup {l : List Nat} {q : Nat} : q ∈ sortDedup l ↔ q ∈ l := by
  unfold sortDedup
  rw [List.mem_insertionSort, List.mem_dedup]

theorem sortDedup_pairwise (l : List Nat) : List.Pairwise (· < ·) (sortDedup l) := by
  have hs : List.Sorted (· ≤ ·) (sortDedup l) := List.sorted_insertionSort (· ≤ ·) l.dedup
  have hn : (sortDedup l).Nodup :=
    ((List.perm_insertionSort (· ≤ ·) l.dedup).nodup_iff).mpr (List.nodup_dedup l)
  exact (List.Pairwise.and hs hn).imp (fun h => lt_of_le_of_ne h.1 h.2)

theorem finalKeep_mem {cfg : Config} {srcNames : List (List Char)}
    {idx : List (Nat × List (List Char))} {q : Nat} :
    q ∈ finalKeep cfg srcNames idx ↔
      q ∈ (matchLoop cfg idx srcNames).kept ∨ q ∈ manualPages cfg idx := by
  unfold finalKeep
  rw [mem_sortDedup, List.mem_append]

/-- The strict equality rule of the configuration: exact equality when
case-sensitive (the committed setting), equality of the lowercased
names otherwise. -/
def strictEq (cfg : Config) (n s : List Char) : Prop :=
  if cfg.strictCaseSensitive then n = s else lowerL n = lowerL s

instance (cfg : Config) (n s : List Char) : Decidable (strictEq cfg n s) := by
  unfold strictEq
  infer_instance

theorem flatNames_mem {idx : List (Nat × List (List Char))} {n : List Char} :
    n ∈ flatNames idx ↔ ∃ p names, (p, names) ∈ idx ∧ n ∈ names := by
  unfold flatNames
  rw [List.mem_flatten]
  constructor
  · rintro ⟨l, hl, hn⟩
    rw [List.mem_map] at hl
    obtain ⟨pn, hpn, rfl⟩ := hl
    exact ⟨pn.1, pn.2, hpn, hn⟩
  · rintro ⟨p, names, hmem, hn⟩
    exact ⟨names, List.mem_map.mpr ⟨(p, names), hmem, rfl⟩, hn⟩

theorem strictHit_iff {cfg : Config} {s : List Char} {names : List (List Char)} :
    strictHitP cfg s names ↔ ∃ n ∈ names, strictEq cfg n s := by
  unfold strictHitP strictEq
  cases hcs : cfg.strictCaseSensitive with
  | true => simp
  | false =>
    simp only [List.mem_map]
    simp only [Bool.false_eq_true, if_false, eq_self_iff_true, true_and]
    constructor
    · rintro (hs | ⟨n, hn, he⟩)
      · exact ⟨s, hs, rfl⟩
      · exact ⟨n, hn, he⟩
    · rintro ⟨n, hn, he⟩
      exact Or.inr ⟨n, hn, he⟩

theorem strictKeyMem_iff {cfg : Config} {idx : List (Nat × List (List Char))}
    {s : List Char} :
    strictRuleKey cfg s ∈ strictSetL cfg idx ↔ ∃ n ∈ flatNames idx, strictEq cfg n s := by
  unfold strictRuleKey strictSetL strictEq
  cases hcs : cfg.strictCaseSensitive with
  | true => simp
  | false =>
    simp only [Bool.false_eq_true, if_false, List.mem_map]

theorem strictPages_mem_iff {cfg : Config} {idx : List (Nat × List (List Char))}
    {s : List Char} {p : Nat} :
    p ∈ strictPages cfg idx s ↔
      ∃ names, (p, names) ∈ idx ∧ ∃ n ∈ names, strictEq cfg n s := by
  unfold strictPages
  split
  · rename_i hk
    rw [List.mem_map]
    constructor
    · rintro ⟨pn, hpn, rfl⟩
      obtain ⟨hmem, hhit⟩ := List.mem_filter.mp hpn
      rw [decide_eq_true_eq] at hhit
      exact ⟨pn.2, hmem, strictHit_iff.mp hhit⟩
    · rintro ⟨names, hmem, hex⟩
      exact ⟨(p, names),
        List.mem_filter.mpr ⟨hmem, decide_eq_true (strictHit_iff.mpr hex)⟩, rfl⟩
  · rename_i hk
    simp only [List.not_mem_nil, false_iff]
    rintro ⟨names, hmem, ⟨n, hn, he⟩⟩
    exact hk (strictKeyMem_iff.mpr ⟨n, flatNames_mem.mpr ⟨p, names, hmem, hn⟩, he⟩)

theorem strictPages_ne_nil {cfg : Config} {idx : List (Nat × List (List Char))}
    {s : List Char} (hex : ∃ n ∈ flatNames idx, strictEq cfg n s) :
    strictPages cfg idx s ≠ [] := by
  obtain ⟨n, hflat, he⟩ := hex
  obtain ⟨p, names, hmem, hn⟩ := flatNames_mem.mp hflat
  intro hnil
  have : p ∈ strictPages cfg idx s := strictPages_mem_iff.mpr ⟨names, hmem, n, hn, he⟩
  rw [hnil] at this
  simp at this

theorem bump_counts (st : MatchState) (pgs : List Nat) (cl : MatchClass) :
    (bump st pgs cl).strictCnt + (bump st pgs cl).looseCnt + (bump st pgs cl).noneCnt =
      st.strictCnt + st.looseCnt + st.noneCnt + 1 := by
  cases cl <;> simp only [bump] <;> omega

theorem matchFold_counts {cfg : Config} {idx : List (Nat × List (List Char))} :
    ∀ (l : List (List Char)) (st : MatchState),
      (l.foldl (matchStep cfg idx) st).strictCnt +
        (l.foldl (matchStep cfg idx) st).looseCnt +
        (l.foldl (matchStep cfg idx) st).noneCnt =
      st.strictCnt + st.looseCnt + st.noneCnt + l.length := by
  intro l
  induction l with
  | nil => intro st; simp
  | cons s rest ih =>
    intro st
    rw [List.foldl_cons]
    rw [ih (matchStep cfg idx st s)]
    unfold matchStep
    rw [bump_counts]
    simp only [List.length_cons]
    omega

theorem manualPages_mem_iff {cfg : Config} {idx : List (Nat × List (List Char))}
    {p : Nat} :
    p ∈ manualPages cfg idx ↔
      ∃ names, (p, names) ∈ idx ∧ ∃ n ∈ names, pyStrip n ∈ cfg.manualKeep := by
  unfold manualPages
  rw [List.mem_map]
  constructor
  · rintro ⟨pn, hpn, rfl⟩
    obtain ⟨hmem, hcond⟩ := List.mem_filter.mp hpn
    rw [decide_eq_true_eq] at hcond
    exact ⟨pn.2, hmem, hcond⟩
  · rintro ⟨names, hmem, hex⟩
    exact ⟨(p, names), List.mem_filter.mpr ⟨hmem, decide_eq_true hex⟩, rfl⟩

/-! ## The claims -/

/-- Claim C1: for every source name `s` and target page `p` in the page
index, `s` strict-matches an entry on `p` (the strict phase of the
matching loop collects `p` for `s`) iff, under the configured case
rule, some entry on `p` has (trimmed) name exactly equal to `s`; and
whenever a strict match exists anywhere, the source name is classified
STRICT and contributes exactly its strict pages — the loose fallback is
never attempted. -/
theorem c1_strict_iff_and_precedence (cfg : Config)
    (idx : List (Nat × List (List Char))) (s : List Char) (p : Nat) :
    (p ∈ strictPages cfg idx s ↔
      ∃ names, (p, names) ∈ idx ∧ ∃ n ∈ names, strictEq cfg n s) ∧
    ((∃ n ∈ flatNames idx, strictEq cfg n s) →
      matchOne cfg idx s = (strictPages cfg idx s, MatchClass.STRICT)) := by
  refine ⟨strictPages_mem_iff, ?_⟩
  intro hex
  have hne := strictPages_ne_nil hex
  cases hsp : strictPages cfg idx s with
  | nil => exact absurd hsp hne
  | cons a t => simp [matchOne, hsp]

/-- Witness for C1 at a one-page index: the source name matches
strictly and is classified STRICT. -/
theorem c1_witness :
    matchOne cfgDefault [(1, [nmAlpha])] nmAlpha =
      (strictPages cfgDefault [(1, [nmAlpha])] nmAlpha, MatchClass.STRICT) :=
  (c1_strict_iff_and_precedence cfgDefault [(1, [nmAlpha])] nmAlpha 1).2
    ⟨nmAlpha, by decide, by decide⟩

/-- Claim C2: the three classification counters sum to the number of
source names, for the matching loop on any inputs and in `main`'s
final summary. -/
theorem c2_counters_sum (cfg : Config) (idx : List (Nat × List (List Char)))
    (srcNames : List (List Char)) (srcPages tgtPages : List (List Char)) :
    (matchLoop cfg idx srcNames).strictCnt + (matchLoop cfg idx srcNames).looseCnt +
        (matchLoop cfg idx srcNames).noneCnt = srcNames.length ∧
    (runMain cfg srcPages tgtPages).summary.strictCnt +
        (runMain cfg srcPages tgtPages).summary.looseCnt +
        (runMain cfg srcPages tgtPages).summary.noneCnt =
      (runMain cfg srcPages tgtPages).summary.srcTotal := by
  have hloop : ∀ (idx2 : List (Nat × List (List Char))) (l : List (List Char)),
      (matchLoop cfg idx2 l).strictCnt + (matchLoop cfg idx2 l).looseCnt +
        (matchLoop cfg idx2 l).noneCnt = l.length := by
    intro idx2 l
    unfold matchLoop
    rw [matchFold_counts]
    simp
  exact ⟨hloop idx srcNames, hloop _ _⟩

/-- Claim C3: a target occurrence whose cleaned name contains a
drop-word never appears in the page index: every name stored in
`PageIndex` is drop-word free, so a dropped occurrence participates in
no matching, no statistics and no page selection. -/
theorem c3_dropword_excluded (cfg : Config) (pages : List (List Char)) (p : Nat)
    (names : List (List Char)) (n : List Char)
    (h1 : (p, names) ∈ loadTargetTests cfg pages) (h2 : n ∈ names) :
    hasDropWord cfg n = false := by
  obtain ⟨-, t, ht⟩ := loadTargetTests_mem h1
  exact (processTgt_name_props (ht ▸ h2)).2.1

/-- Witness for C3 on a concrete one-page target document. -/
theorem c3_witness : hasDropWord cfgDefault nmAlpha = false :=
  c3_dropword_excluded cfgDefault [tA1] 1 [nmAlpha] nmAlpha (by decide) (by decide)

/-- Claim C4 (amended): manual overrides do not bypass drop-word
filtering.  The manual-keep scan ranges only over the page index, whose
entries are all drop-word free, so a page is forced into the keep set
exactly when some surviving (non-dropped) entry on it strips to a
member of the manual-keep list; listing a dropped occurrence's own name
has no effect. -/
theorem c4_manual_scan_pageindex (cfg : Config) (pages : List (List Char)) (p : Nat) :
    p ∈ manualPages cfg (loadTargetTests cfg pages) ↔
      ∃ names, (p, names) ∈ loadTargetTests cfg pages ∧
        ∃ n ∈ names, pyStrip n ∈ cfg.manualKeep ∧ hasDropWord cfg n = false := by
  rw [manualPages_mem_iff]
  constructor
  · rintro ⟨names, hmem, n, hn, hk⟩
    obtain ⟨-, t, ht⟩ := loadTargetTests_mem hmem
    exact ⟨names, hmem, n, hn, hk, (processTgt_name_props (ht ▸ hn)).2.1⟩
  · rintro ⟨names, hmem, n, hn, hk, -⟩
    exact ⟨names, hmem, n, hn, hk⟩

/-- Counterexample to C4 as stated: the page's only Device Test
occurrence is `CONTY Startup`, which contains a drop-word; its name is
in the manual-keep list, yet the final keep set stays empty, so the
occurrence's page is not forced into it. -/
theorem c4_counterexample :
    (tgtFindAll (normLayout tC4)).map (fun occ => cleanName occ.2) = [nmConty] ∧
    hasDropWord cfgC4 nmConty = true ∧
    pyStrip nmConty ∈ cfgC4.manualKeep ∧
    pipelineKeep cfgC4 [] [tC4] = [] := by
  decide

/-- Claim C5: every page-index entry whose stripped name is in the
manual-keep list has its page in the final keep set, whatever the
source names (and hence whatever the strict/loose/none outcomes). -/
theorem c5_manual_override_forces (cfg : Config) (srcNames : List (List Char))
    (idx : List (Nat × List (List Char))) (p : Nat) (names : List (List Char))
    (n : List Char) (h1 : (p, names) ∈ idx) (h2 : n ∈ names)
    (h3 : pyStrip n ∈ cfg.manualKeep) :
    p ∈ finalKeep cfg srcNames idx :=
  finalKeep_mem.mpr (Or.inr (manualPages_mem_iff.mpr ⟨names, h1, n, h2, h3⟩))

/-- Witness for C5: Scenario D, with no source names at all. -/
theorem c5_witness : 3 ∈ finalKeep cfgC5 [] [(3, [nmLegacy])] :=
  c5_manual_override_forces cfgC5 [] [(3, [nmLegacy])] 3 [nmLegacy] nmLegacy
    (by decide) (by decide) (by decide)

/-- Claim C6: the final keep list is strictly ascending with unique
entries, every entry is a valid 1-based page number of the target
document, and the output document (when one is written) consists of
exactly the kept pages in that order. -/
theorem c6_keep_sorted_bounded (cfg : Config) (srcPages tgtPages : List (List Char)) :
    List.Pairwise (· < ·) (pipelineKeep cfg srcPages tgtPages) ∧
    (∀ p ∈ pipelineKeep cfg srcPages tgtPages, 1 ≤ p ∧ p ≤ tgtPages.length) ∧
    (pipelineKeep cfg srcPages tgtPages ≠ [] →
      writePdfPages (pipelineKeep cfg srcPages tgtPages) =
        some (pipelineKeep cfg srcPages tgtPages)) := by
  refine ⟨sortDedup_pairwise _, ?_, ?_⟩
  · intro p hp
    unfold pipelineKeep finalKeep at hp
    rw [mem_sortDedup, List.mem_append] at hp
    have hkey : p ∈ (loadTargetTests cfg tgtPages).map Prod.fst := by
      rcases hp with hk | hm
      · unfold matchLoop at hk
        rcases matchFold_kept_sub _ _ _ hk with h0 | hi
        · simp at h0
        · exact hi
      · exact manualPages_sub hm
    rw [List.mem_map] at hkey
    obtain ⟨pn, hpn, rfl⟩ := hkey
    have hpn2 : (pn.1, pn.2) ∈ loadTargetTests cfg tgtPages := hpn
    exact (loadTargetTests_mem hpn2).1
  · intro hne
    cases hk : pipelineKeep cfg srcPages tgtPages with
    | nil => exact absurd hk hne
    | cons a t => simp [writePdfPages]

/-- Witness for C6 on a concrete matching run that keeps page 1. -/
theorem c6_witness :
    ((1 : Nat) ≤ 1 ∧ 1 ≤ [tA1].length) ∧
    writePdfPages (pipelineKeep cfgDefault [sA1] [tA1]) =
      some (pipelineKeep cfgDefault [sA1] [tA1]) :=
  ⟨(c6_keep_sorted_bounded cfgDefault [sA1] [tA1]).2.1 1 (by decide),
   (c6_keep_sorted_bounded cfgDefault [sA1] [tA1]).2.2 (by decide)⟩

/-- Claim C7 (amended): source extraction yields at most one name per
page, namely the cleaned capture of the *earliest position where the
whole pattern completes*; the capture never contains a carriage return
or line feed and is never empty.  Because the capture cannot cross a
line break, a numeric prefix whose name segment reaches a line break
with no terminator yields no match at that position and the search
continues — so the name need not come from the first numeric prefix,
and a page whose only prefix is of that kind contributes no name. -/
theorem c7_source_extraction :
    (∀ text n : List Char, srcExtract text = some n →
      n ≠ [] ∧ ∀ c ∈ n, c ≠ '\r' ∧ c ≠ '\n') ∧
    srcExtract tScenA = some nmBattery ∧
    srcExtract tC7a = none ∧
    srcExtract tC7b = some nmB :=
  ⟨fun _ _ h => srcExtract_props h, by decide, by decide, by decide⟩

/-- Witness for C7 at Scenario A's page text. -/
theorem c7_witness :
    nmBattery ≠ [] ∧ ∀ c ∈ nmBattery, c ≠ '\r' ∧ c ≠ '\n' :=
  c7_source_extraction.1 tScenA nmBattery (by decide)

/-- Counterexample to C7 as stated: on `1 __ Foo\nBar` the code
extracts nothing (the capture cannot cross the line break and no
terminator occurs before it), while the claim's own reading — the text
following the first numeric prefix until two-or-more spaces, the word
`Test`, or end of text — yields `Foo\nBar`. -/
theorem c7_counterexample :
    srcExtract tC7a = none ∧ srcExtractSpec tC7a = some nmC7 := by
  decide

/-- Claim C8 (amended): target extraction collects every non-overlapping
occurrence in order of appearance (several per page are possible), the
dotted id needs 2 to 4 numeric groups *of one to three digits each*,
and every stored name is nonempty, free of line breaks and free of
two-or-more consecutive whitespace characters (the terminator rule). -/
theorem c8_target_extraction :
    processTgt cfgDefault t8a = [nmAlpha, nmBeta] ∧
    processTgt cfgDefault t8b = [] ∧
    processTgt cfgDefault t8c = [] ∧
    processTgt cfgDefault t8d = [] ∧
    (∀ (cfg : Config) (text n : List Char), n ∈ processTgt cfg text →
      n ≠ [] ∧ (∀ c ∈ n, c ≠ '\r' ∧ c ≠ '\n') ∧
        List.Chain' (fun a b => ¬(isWS a = true ∧ isWS b = true)) n) :=
  ⟨by decide, by decide, by decide, by decide,
   fun _ _ _ h =>
     ⟨(processTgt_name_props h).1, (processTgt_name_props h).2.2.1,
      (processTgt_name_props h).2.2.2⟩⟩

/-- Witness for C8 at the two-occurrence page text. -/
theorem c8_witness :
    nmAlpha ≠ [] ∧ (∀ c ∈ nmAlpha, c ≠ '\r' ∧ c ≠ '\n') ∧
      List.Chain' (fun a b => ¬(isWS a = true ∧ isWS b = true)) nmAlpha :=
  c8_target_extraction.2.2.2.2 cfgDefault t8a nmAlpha (by decide)

/-- Counterexample to C8 as stated: `Device Test: 1234.5 Gamma` has a
dotted id of two numeric groups, yet the code extracts nothing because
the first group has four digits (the pattern bounds every group to
three digits), while the claim's own reading extracts `Gamma`. -/
theorem c8_counterexample :
    processTgt cfgDefault t8d = [] ∧ processTgtSpec cfgDefault t8d = [nmGamma] := by
  decide

/-- Claim C9: when the final keep set is empty nothing is written —
`main` takes the `[!] No pages matched` branch instead of the `Wrote:`
branch, `write_pdf_pages` itself returns without producing a document,
and the run still reaches its final summary (whose kept count is 0)
rather than aborting. -/
theorem c9_empty_keep_no_output (cfg : Config) (srcPages tgtPages : List (List Char))
    (h : pipelineKeep cfg srcPages tgtPages = []) :
    (runMain cfg srcPages tgtPages).output = none ∧
    (runMain cfg srcPages tgtPages).noMatchMsg = true ∧
    (runMain cfg srcPages tgtPages).savedMsg = false ∧
    (runMain cfg srcPages tgtPages).summary.keptCount = 0 ∧
    writePdfPages (pipelineKeep cfg srcPages tgtPages) = none := by
  unfold pipelineKeep at h
  simp [runMain, writePdfPages, pipelineKeep, h]

/-- Witness for C9: the empty documents give an empty keep set. -/
theorem c9_witness :
    (runMain cfgDefault [] []).output = none ∧
    (runMain cfgDefault [] []).noMatchMsg = true ∧
    (runMain cfgDefault [] []).savedMsg = false ∧
    (runMain cfgDefault [] []).summary.keptCount = 0 ∧
    writePdfPages (pipelineKeep cfgDefault [] []) = none :=
  c9_empty_keep_no_output cfgDefault [] [] (by decide)

/-- Claim C10: a captured name that is empty after cleaning is
discarded at both extraction interfaces, so the empty string never
occurs among the source names nor among any page's target names. -/
theorem c10_empty_names_discarded (cfg : Config) (srcPages tgtPages : List (List Char)) :
    [] ∉ loadSourceNames srcPages ∧
    ∀ (p : Nat) (names : List (List Char)),
      (p, names) ∈ loadTargetTests cfg tgtPages → [] ∉ names := by
  constructor
  · intro hmem
    unfold loadSourceNames at hmem
    rw [List.mem_filterMap] at hmem
    obtain ⟨t, -, hext⟩ := hmem
    exact (srcExtract_props hext).1 rfl
  · intro p names hmem hn
    obtain ⟨-, t, ht⟩ := loadTargetTests_mem hmem
    exact (processTgt_name_props (ht ▸ hn)).1 rfl

/-- Witness for C10 on a concrete one-page target document. -/
theorem c10_witness : ([] : List Char) ∉ [nmAlpha] :=
  (c10_empty_names_discarded cfgDefault [] [tA1]).2 1 [nmAlpha] (by decide)
